import Mathlib

/-!
Shallow embedding of src/src/highlighter/mod.rs (tantivy highlighter).

The Rust module has three parts:
* an `unsafe fn positions` that decodes, for one document and field, the
  token-ordinal positions of all query terms into a reusable scratch buffer
  `buffer : [u32; BUFFER_LEN]` whose slot 0 stores the logical length in-band;
* `TextRangesGenerator::generate`, which partitions `[0, text.len())` into
  highlighted and filler `TextRange`s by replaying the field tokenizer;
* `HighlightRangesGenerator::generate`, which emits one `HighlightRange` per
  matched token, optionally stopping at a byte-offset `limit`.

Collaborators (postings cursor, position reader, tokenizer) are modelled by
the data they hand to this module: a `TermPostings` record per query term and
a `List Token` for the tokenizer stream.  The scratch buffer is modelled as a
flat memory `Nat → Nat` starting at the buffer's base pointer together with
the list of all indices written, so that writes past `BUFFER_LEN` (which are
undefined behaviour in the Rust) stay observable.
-/

/-- Size of the scratch buffer, `const BUFFER_LEN: usize = 1 << 8`. -/
def BUFFER_LEN : Nat := 1 <<< 8

/-- One token emitted by the tokenizer replay: its ordinal `position` among
emitted tokens and its byte span `[offset_from, offset_to)` into the text. -/
structure Token where
  position : Nat
  offset_from : Nat
  offset_to : Nat
deriving DecidableEq, Repr

/-- A span of the full-text partition produced by `TextRangesGenerator`. -/
structure TextRange where
  highlight : Bool
  lower : Nat
  upper : Nat
deriving DecidableEq, Repr

/-- Mirrors `TextRange::whole`: the single non-highlighted range `[0, upper)`. -/
def TextRange.whole (upper : Nat) : List TextRange :=
  [{ highlight := false, lower := 0, upper := upper }]

/-- A matched span produced by `HighlightRangesGenerator`. -/
structure HighlightRange where
  lower : Nat
  upper : Nat
deriving DecidableEq, Repr

/-- Mirrors `HighlightRange::bounds`. -/
def HighlightRange.bounds (r : HighlightRange) : Nat × Nat := (r.lower, r.upper)

/-- The data the `positions` function reads from one query term's postings
after `postings.seek(doc_id)`:
* `found` — whether `seek(doc_id) == doc_id`;
* `hasReader` — whether `postings.position_reader` is `Some`;
* `freqs` — `block_cursor.freqs()`, the per-document frequencies of the
  current postings block;
* `cur` — `postings.cur`, the index of the current document in the block;
* `positionOffset` — `block_cursor.position_offset()`, the block's base
  offset into the term's position stream;
* `stream` — the term's decoded position data: `position_reader.read(o, out)`
  fills `out[i]` with `stream (o + i)`. -/
structure TermPostings where
  found : Bool
  hasReader : Bool
  freqs : List Nat
  cur : Nat
  positionOffset : Nat
  stream : Nat → Nat

/-- The scratch buffer as flat memory from its base pointer, plus the list of
every index written through the raw pointer (in write order).  Indices
`0, …, BUFFER_LEN - 1` are inside the buffer; larger indices are past its
end. -/
structure PosState where
  buf : Nat → Nat
  writes : List Nat

/-- Mirrors `ptr::write(ptr.add(i), v)`. -/
def writeSlot (s : PosState) (i v : Nat) : PosState :=
  { buf := fun j => if j = i then v else s.buf j, writes := s.writes ++ [i] }

/-- Mirrors filling the slice `slice::from_raw_parts_mut(ptr.add(i), vs.len())`
with the values `vs`, one pointer write per element. -/
def writeVals : PosState → Nat → List Nat → PosState
  | s, _, [] => s
  | s, i, v :: vs => writeVals (writeSlot s i v) (i + 1) vs

/-- Mirrors `position_reader.read(offset, output)` for an output slice of
length `len`: the values it stores are `stream offset, …,
stream (offset + len - 1)`. -/
def readPositions (stream : Nat → Nat) (offset len : Nat) : List Nat :=
  (List.range len).map fun i => stream (offset + i)

/-- One iteration of the `for term_info in terminfos` loop of `positions`:
if the document is present in this term's postings and a position reader is
available, read the running length from slot 0, store the new length
`len + additional` in slot 0, and decode `additional = freqs[cur]` positions
starting at `position_offset() + freqs[..cur].sum()` into the slots
`1 + len, …, len + additional`. -/
def processTerm (s : PosState) (t : TermPostings) : PosState :=
  if t.found && t.hasReader then
    let len := s.buf 0
    let additional := t.freqs.getD t.cur 0
    let s1 := writeSlot s 0 (len + additional)
    let offset := t.positionOffset + (t.freqs.take t.cur).sum
    writeVals s1 (1 + len) (readPositions t.stream offset additional)
  else s

/-- The buffer state after `unsafe fn positions` has run: slot 0 is first
initialised to 0 (`ptr::write(ptr, 0)`), then every term of the resolved,
ordered term set is processed in order.  `init` is the buffer's content on
entry (the buffer is created uninitialised and reused across calls). -/
def positionsState (terms : List TermPostings) (init : Nat → Nat) : PosState :=
  terms.foldl processTerm (writeSlot { buf := init, writes := [] } 0 0)

/-- The slice returned by `positions`:
`slice::from_raw_parts(ptr.add(1), ptr::read(ptr) as usize)`, i.e. the
`buf 0` values stored at indices `1, …, buf 0`. -/
def positions (terms : List TermPostings) (init : Nat → Nat) : List Nat :=
  let s := positionsState terms init
  (List.range (s.buf 0)).map fun i => s.buf (1 + i)

/-- The `while let Some(token) = token_stream.next()` loop of
`TextRangesGenerator::generate`, threading the cursor `lower` and returning
the emitted ranges together with the final cursor.  For each token whose
ordinal (cast to `u32`) is in the position slice: a filler range
`[lower, offset_from)` is written when `offset_from > lower`, then the
highlighted range `[offset_from, offset_to)`, and the cursor advances to
`offset_to`. -/
def textRangesLoop (ps : List Nat) (lower : Nat) :
    List Token → List TextRange × Nat
  | [] => ([], lower)
  | token :: rest =>
    if ps.contains (token.position % 2 ^ 32) then
      let fill : List TextRange :=
        if lower < token.offset_from then
          [{ highlight := false, lower := lower, upper := token.offset_from }]
        else []
      let next := textRangesLoop ps token.offset_to rest
      (fill ++ { highlight := true, lower := token.offset_from,
                 upper := token.offset_to } :: next.1, next.2)
    else textRangesLoop ps lower rest

/-- Mirrors `TextRangesGenerator::generate`.  The searcher, query, field and
document address enter only through the decoded `positions` data (`terms`,
`init`) and the tokenizer stream.  `tokenizer = none` models a field with no
configured tokenizer, in which case `.expect("text_field")` panics and the
call aborts instead of returning: the result `none` stands for that panic,
never for an error value handed to the caller. -/
def TextRangesGenerator.generate (terms : List TermPostings) (init : Nat → Nat)
    (tokenizer : Option (List Token)) (text_len : Nat) :
    Option (List TextRange) :=
  if text_len = 0 then some []
  else
    let upper := text_len
    let ps := positions terms init
    if ps.isEmpty then some (TextRange.whole upper)
    else
      match tokenizer with
      | none => none
      | some tokens =>
        let r := textRangesLoop ps 0 tokens
        some (r.1 ++ if r.2 ≠ upper then
          [{ highlight := false, lower := r.2, upper := upper }] else [])

/-- The `while let Some(token) = token_stream.next().filter(…)` loop of
`HighlightRangesGenerator::generate`: iteration stops at the first token
whose `offset_to` exceeds the limit (when a limit is supplied); each
surviving token whose ordinal (cast to `u32`) is in the position slice
contributes the range `[offset_from, offset_to)`. -/
def highlightLoop (ps : List Nat) (limit : Option Nat) :
    List Token → List HighlightRange
  | [] => []
  | token :: rest =>
    if (limit.map fun l => decide (token.offset_to ≤ l)).getD true then
      (if ps.contains (token.position % 2 ^ 32) then
        [{ lower := token.offset_from, upper := token.offset_to }]
      else []) ++ highlightLoop ps limit rest
    else []

/-- Mirrors `HighlightRangesGenerator::generate`; conventions as for
`TextRangesGenerator.generate`, with the extra byte-offset `limit`. -/
def HighlightRangesGenerator.generate (terms : List TermPostings)
    (init : Nat → Nat) (tokenizer : Option (List Token)) (text_len : Nat)
    (limit : Option Nat) : Option (List HighlightRange) :=
  if text_len = 0 then some []
  else
    let ps := positions terms init
    if ps.isEmpty then some []
    else
      match tokenizer with
      | none => none
      | some tokens => some (highlightLoop ps limit tokens)

/-- The block of position values one term contributes to the scratch buffer:
nothing when the document is absent from its postings or no position reader
exists, otherwise the `freqs[cur]` values decoded starting at
`position_offset() + freqs[..cur].sum()`. -/
def termOut (t : TermPostings) : List Nat :=
  if t.found && t.hasReader then
    readPositions t.stream (t.positionOffset + (t.freqs.take t.cur).sum)
      (t.freqs.getD t.cur 0)
  else []

/-- ChainFrom lo rs hi states that the ranges `rs` tile the interval
`[lo, hi)` exactly: the first range starts at `lo`, each range is non-empty
in the weak sense `lower ≤ upper`, consecutive ranges share an endpoint, and
the last range ends at `hi` (with `lo = hi` for the empty list). -/
def ChainFrom : Nat → List TextRange → Nat → Prop
  | lo, [], hi => lo = hi
  | lo, r :: rs, hi => r.lower = lo ∧ lo ≤ r.upper ∧ ChainFrom r.upper rs hi

/-- Well-formed tokenizer output: byte spans are ordered (`offset_from ≤
offset_to`), stay inside the text, and consecutive tokens do not overlap. -/
def TokensAscending (tokens : List Token) (text_len : Nat) : Prop :=
  (∀ t ∈ tokens, t.offset_from ≤ t.offset_to ∧ t.offset_to ≤ text_len) ∧
  List.Chain' (fun a b => a.offset_to ≤ b.offset_from) tokens

/-- TokensAscending strengthened with non-empty byte spans
(`offset_from < offset_to`). -/
def TokensStrict (tokens : List Token) (text_len : Nat) : Prop :=
  (∀ t ∈ tokens, t.offset_from < t.offset_to ∧ t.offset_to ≤ text_len) ∧
  List.Chain' (fun a b => a.offset_to ≤ b.offset_from) tokens

/-- Zero-initialised buffer content used for concrete evaluations. -/
def zeroMem : Nat → Nat := fun _ => 0

/-- A term whose current document carries 256 positions: one more than the
255 slots left after the in-band length slot. -/
def overflowTerm : TermPostings :=
  { found := true, hasReader := true, freqs := [256], cur := 0,
    positionOffset := 0, stream := fun _ => 0 }

/-- A term decoding the two positions 0 and 1 for the current document. -/
def pairTerm : TermPostings :=
  { found := true, hasReader := true, freqs := [2], cur := 0,
    positionOffset := 0, stream := fun i => i }

/-- Two byte-adjacent tokens at ordinals 0 and 1. -/
def adjacentToks : List Token :=
  [{ position := 0, offset_from := 0, offset_to := 3 },
   { position := 1, offset_from := 3, offset_to := 5 }]

/-- A term decoding the single position 3 (the ordinal of the token fox in
the text the quick brown fox). -/
def foxTerm : TermPostings :=
  { found := true, hasReader := true, freqs := [1], cur := 0,
    positionOffset := 0, stream := fun _ => 3 }

/-- Whitespace tokenization of the 19-byte text the quick brown fox. -/
def foxToks : List Token :=
  [{ position := 0, offset_from := 0, offset_to := 3 },
   { position := 1, offset_from := 4, offset_to := 9 },
   { position := 2, offset_from := 10, offset_to := 15 },
   { position := 3, offset_from := 16, offset_to := 19 }]

/-- Expected partition output for the round-trip scenario: filler `[0, 16)`
then the match `[16, 19)` with no trailing range. -/
def foxRanges : List TextRange :=
  [{ highlight := false, lower := 0, upper := 16 },
   { highlight := true, lower := 16, upper := 19 }]

/-- Two tokens whose ordinals 3 and `2 ^ 32 + 3` are distinct as emitted
(usize) but collide after the code's `as u32` cast: both are compared
against the position slice as the value 3. -/
def collideToks : List Token :=
  [{ position := 3, offset_from := 1, offset_to := 3 },
   { position := 2 ^ 32 + 3, offset_from := 4, offset_to := 9 }]

/-- Partition output on `collideToks` with decoded position set `[3]` and
text length 10: both tokens match, so five ranges are written although the
reservation for one decoded position is `2 * 1 + 1 = 3`. -/
def collideTextRanges : List TextRange :=
  [{ highlight := false, lower := 0, upper := 1 },
   { highlight := true, lower := 1, upper := 3 },
   { highlight := false, lower := 3, upper := 4 },
   { highlight := true, lower := 4, upper := 9 },
   { highlight := false, lower := 9, upper := 10 }]

/-- Match output on `collideToks` with decoded position set `[3]`: two
ranges are written although the reservation is `1`. -/
def collideHighlightRanges : List HighlightRange :=
  [{ lower := 1, upper := 3 }, { lower := 4, upper := 9 }]

/-! ## Buffer write lemmas -/

theorem writeVals_buf_lt (vs : List Nat) :
    ∀ (s : PosState) (i j : Nat), j < i → (writeVals s i vs).buf j = s.buf j := by
  induction vs with
  | nil => intro s i j _; rfl
  | cons v vs ih =>
    intro s i j hj
    show (writeVals (writeSlot s i v) (i + 1) vs).buf j = s.buf j
    rw [ih _ _ _ (Nat.lt_succ_of_lt hj)]
    simp [writeSlot, Nat.ne_of_lt hj]

theorem writeVals_buf_ge (vs : List Nat) :
    ∀ (s : PosState) (i j : Nat), i + vs.length ≤ j →
      (writeVals s i vs).buf j = s.buf j := by
  induction vs with
  | nil => intro s i j _; rfl
  | cons v vs ih =>
    intro s i j hj
    simp only [List.length_cons] at hj
    show (writeVals (writeSlot s i v) (i + 1) vs).buf j = s.buf j
    rw [ih _ _ _ (by omega)]
    have : j ≠ i := by omega
    simp [writeSlot, this]

theorem writeVals_buf_get (vs : List Nat) :
    ∀ (s : PosState) (i k : Nat), k < vs.length →
      (writeVals s i vs).buf (i + k) = vs.getD k 0 := by
  induction vs with
  | nil => intro s i k hk; simp at hk
  | cons v vs ih =>
    intro s i k hk
    show (writeVals (writeSlot s i v) (i + 1) vs).buf (i + k) = _
    match k with
    | 0 =>
      have h01 : i + 0 < i + 1 := by omega
      rw [writeVals_buf_lt _ _ _ _ h01]
      simp [writeSlot]
    | k + 1 =>
      have : i + (k + 1) = (i + 1) + k := by omega
      rw [this, ih _ _ _ (by simpa using hk)]
      rfl

theorem readPositions_length (stream : Nat → Nat) (offset len : Nat) :
    (readPositions stream offset len).length = len := by
  simp [readPositions]

theorem termOut_length (t : TermPostings) :
    (termOut t).length =
      if t.found && t.hasReader then t.freqs.getD t.cur 0 else 0 := by
  by_cases h : t.found && t.hasReader <;>
    simp [termOut, h, readPositions_length]

theorem processTerm_buf_zero (s : PosState) (t : TermPostings) :
    (processTerm s t).buf 0 = s.buf 0 + (termOut t).length := by
  by_cases h : t.found && t.hasReader
  · simp only [processTerm, h, if_true]
    rw [writeVals_buf_lt _ _ _ _ (by omega)]
    simp [writeSlot, termOut_length, h]
  · simp [processTerm, h, termOut_length]

theorem processTerm_buf_keep (s : PosState) (t : TermPostings) (j : Nat)
    (hj0 : j ≠ 0) (hj : j < 1 + s.buf 0) : (processTerm s t).buf j = s.buf j := by
  by_cases h : t.found && t.hasReader
  · simp only [processTerm, h, if_true]
    rw [writeVals_buf_lt _ _ _ _ hj]
    simp [writeSlot, hj0]
  · simp [processTerm, h]

theorem processTerm_buf_new (s : PosState) (t : TermPostings) (k : Nat)
    (hk : k < (termOut t).length) :
    (processTerm s t).buf (1 + s.buf 0 + k) = (termOut t).getD k 0 := by
  by_cases h : t.found && t.hasReader
  · simp only [processTerm, h, if_true]
    have harg : termOut t =
        readPositions t.stream (t.positionOffset + (t.freqs.take t.cur).sum)
          (t.freqs.getD t.cur 0) := by simp [termOut, h]
    have hlen : k < (readPositions t.stream
        (t.positionOffset + (t.freqs.take t.cur).sum)
        (t.freqs.getD t.cur 0)).length := by rw [← harg]; exact hk
    have hidx : 1 + s.buf 0 + k = (1 + s.buf 0) + k := by omega
    rw [hidx, writeVals_buf_get _ _ _ _ hlen, harg]
  · rw [termOut_length, if_neg h] at hk; omega

theorem foldl_processTerm_inv (terms : List TermPostings) :
    ∀ s : PosState,
      ((terms.foldl processTerm s).buf 0 =
        s.buf 0 + ((terms.map termOut).flatten).length) ∧
      (∀ j, j ≠ 0 → j < 1 + s.buf 0 →
        (terms.foldl processTerm s).buf j = s.buf j) ∧
      (∀ k, k < ((terms.map termOut).flatten).length →
        (terms.foldl processTerm s).buf (1 + s.buf 0 + k) =
          ((terms.map termOut).flatten).getD k 0) := by
  induction terms with
  | nil =>
    intro s
    refine ⟨by simp, fun j _ _ => rfl, fun k hk => by simp at hk⟩
  | cons t ts ih =>
    intro s
    have hz := processTerm_buf_zero s t
    obtain ⟨ih1, ih2, ih3⟩ := ih (processTerm s t)
    simp only [List.foldl_cons, List.map_cons, List.flatten_cons, List.length_append,
      List.getD_eq_getElem?_getD] at *
    refine ⟨by omega, ?_, ?_⟩
    · intro j hj0 hj
      rw [ih2 j hj0 (by omega), processTerm_buf_keep s t j hj0 hj]
    · intro k hk
      by_cases hka : k < (termOut t).length
      · have h1 : (1 : Nat) + s.buf 0 + k < 1 + (processTerm s t).buf 0 := by omega
        rw [ih2 _ (by omega) h1]
        have := processTerm_buf_new s t k hka
        rw [List.getD_eq_getElem?_getD] at this
        rw [this, List.getElem?_append_left hka]
      · have hidx : 1 + s.buf 0 + k = 1 + (processTerm s t).buf 0 +
            (k - (termOut t).length) := by omega
        rw [hidx, ih3 _ (by omega)]
        rw [List.getElem?_append_right (by omega)]

theorem positions_eq_join (terms : List TermPostings) (init : Nat → Nat) :
    positions terms init = (terms.map termOut).flatten := by
  obtain ⟨h1, _, h3⟩ := foldl_processTerm_inv terms (writeSlot ⟨init, []⟩ 0 0)
  have h0 : (writeSlot ⟨init, []⟩ 0 0).buf 0 = 0 := by simp [writeSlot]
  rw [h0] at h1 h3
  simp only [Nat.zero_add] at h1 h3
  unfold positions positionsState
  apply List.ext_getElem
  · simpa using h1
  · intro i hi1 hi2
    simp only [List.getElem_map, List.getElem_range]
    have hi : i < ((terms.map termOut).flatten).length := by
      simpa using hi2
    have := h3 i hi
    have hadd : 1 + 0 + i = 1 + i := by omega
    rw [hadd] at this
    rw [this, List.getD_eq_getElem?_getD, List.getElem?_eq_getElem hi]
    rfl

/-- C10: the slice returned by `positions` covers only buffer slots
`1, …, BUFFER_LEN - 1`, because slot 0 stores the logical length in-band;
whenever the cumulative decoded count respects the code's own
`debug_assert!(len + additional <= BUFFER_LEN - 1)`, the returned view has
length at most `BUFFER_LEN - 1 = 255`, one less than the buffer length. -/
theorem C10_capacity_is_255 (terms : List TermPostings) (init : Nat → Nat)
    (h : ((terms.map termOut).flatten).length ≤ BUFFER_LEN - 1) :
    (positions terms init).length = ((terms.map termOut).flatten).length ∧
    (positions terms init).length ≤ BUFFER_LEN - 1 ∧
    BUFFER_LEN - 1 = 255 := by
  rw [positions_eq_join]
  exact ⟨rfl, h, rfl⟩

theorem C10_capacity_is_255_witness :
    ((([pairTerm].map termOut).flatten).length ≤ BUFFER_LEN - 1) ∧
    ((positions [pairTerm] zeroMem).length =
        (([pairTerm].map termOut).flatten).length ∧
      (positions [pairTerm] zeroMem).length ≤ BUFFER_LEN - 1 ∧
      BUFFER_LEN - 1 = 255) :=
  ⟨by decide, C10_capacity_is_255 [pairTerm] zeroMem (by decide)⟩

set_option maxRecDepth 4000 in
/-- C2: the claim that `positions` surfaces a recoverable
DecodeCapacityExceeded error (or grows the buffer) fails on this code: the
capacity condition is only a `debug_assert!`.  On a term whose current
document carries 256 decoded positions, the cumulative count exceeds the
usable capacity `BUFFER_LEN - 1 = 255`, the loop performs a raw pointer
write at index `BUFFER_LEN` — one slot past the end of the buffer — and the
call still returns a plain slice (here of length 256) instead of any error
value. -/
theorem C2_overflow_writes_past_end :
    BUFFER_LEN - 1 < (([overflowTerm].map termOut).flatten).length ∧
    BUFFER_LEN ∈ (positionsState [overflowTerm] zeroMem).writes ∧
    (positions [overflowTerm] zeroMem).length = BUFFER_LEN := by decide

/-- C7: the claim that a missing tokenizer yields a TokenizerUnavailable
error returned to the caller fails on this code: both generators call
`.expect("text_field")`, which panics (aborts the call) instead of returning
an error value.  At a concrete input with a non-empty text and a non-empty
decoded position set, the modelled result is the panic marker `none`, not an
error result handed back to the caller. -/
theorem C7_missing_tokenizer_panics :
    positions [pairTerm] zeroMem ≠ [] ∧
    TextRangesGenerator.generate [pairTerm] zeroMem none 1 = none ∧
    HighlightRangesGenerator.generate [pairTerm] zeroMem none 1 none = none := by
  decide

/-- C3: for every non-empty text, if the decoded position set is empty then
`TextRangesGenerator.generate` returns exactly one non-highlighted range
covering `[0, len(text))` and `HighlightRangesGenerator.generate` returns
the empty sequence. -/
theorem C3_no_match_fallback (terms : List TermPostings) (init : Nat → Nat)
    (tokenizer : Option (List Token)) (text_len : Nat) (limit : Option Nat)
    (h0 : text_len ≠ 0) (hps : positions terms init = []) :
    TextRangesGenerator.generate terms init tokenizer text_len =
      some [{ highlight := false, lower := 0, upper := text_len }] ∧
    HighlightRangesGenerator.generate terms init tokenizer text_len limit =
      some [] := by
  constructor
  · unfold TextRangesGenerator.generate
    rw [if_neg h0]
    simp [hps, TextRange.whole]
  · unfold HighlightRangesGenerator.generate
    rw [if_neg h0]
    simp [hps]

theorem C3_no_match_fallback_witness :
    ((5 : Nat) ≠ 0 ∧ positions [] zeroMem = []) ∧
    (TextRangesGenerator.generate [] zeroMem (some adjacentToks) 5 =
        some [{ highlight := false, lower := 0, upper := 5 }] ∧
      HighlightRangesGenerator.generate [] zeroMem (some adjacentToks) 5 none =
        some []) :=
  ⟨⟨by decide, by decide⟩,
    C3_no_match_fallback [] zeroMem (some adjacentToks) 5 none (by decide)
      (by decide)⟩

/-! ## Interval-chain lemmas -/

theorem ChainFrom.nil {lo hi : Nat} (h : lo = hi) : ChainFrom lo [] hi := h

theorem ChainFrom.cons {r : TextRange} {rs : List TextRange} {lo hi : Nat}
    (h1 : r.lower = lo) (h2 : lo ≤ r.upper) (h3 : ChainFrom r.upper rs hi) :
    ChainFrom lo (r :: rs) hi :=
  ⟨h1, h2, h3⟩

theorem chainFrom_append :
    ∀ {rs1 : List TextRange} {lo mid hi : Nat} {rs2 : List TextRange},
      ChainFrom lo rs1 mid → ChainFrom mid rs2 hi →
        ChainFrom lo (rs1 ++ rs2) hi := by
  intro rs1
  induction rs1 with
  | nil =>
    intro lo mid hi rs2 h1 h2
    simp only [ChainFrom] at h1
    subst h1
    simpa using h2
  | cons r rs ih =>
    intro lo mid hi rs2 h1 h2
    simp only [ChainFrom] at h1
    obtain ⟨ha, hb, hc⟩ := h1
    simp only [List.cons_append, ChainFrom]
    exact ⟨ha, hb, ih hc h2⟩

theorem chainFrom_le_lower :
    ∀ {rs : List TextRange} {lo hi : Nat}, ChainFrom lo rs hi →
      ∀ r ∈ rs, lo ≤ r.lower := by
  intro rs
  induction rs with
  | nil => intro lo hi _ r hr; simp at hr
  | cons r rs ih =>
    intro lo hi h r' hr'
    simp only [ChainFrom] at h
    obtain ⟨ha, hb, hc⟩ := h
    rcases List.mem_cons.mp hr' with rfl | hmem
    · omega
    · have := ih hc r' hmem
      omega

theorem chainFrom_pairwise :
    ∀ {rs : List TextRange} {lo hi : Nat}, ChainFrom lo rs hi →
      List.Pairwise (fun a b => a.upper ≤ b.lower) rs := by
  intro rs
  induction rs with
  | nil => intro lo hi _; exact List.Pairwise.nil
  | cons r rs ih =>
    intro lo hi h
    simp only [ChainFrom] at h
    obtain ⟨ha, hb, hc⟩ := h
    exact List.Pairwise.cons (fun r' hr' => chainFrom_le_lower hc r' hr') (ih hc)

theorem chainFrom_cover :
    ∀ {rs : List TextRange} {lo hi : Nat}, ChainFrom lo rs hi →
      ∀ x, lo ≤ x → x < hi → ∃ r ∈ rs, r.lower ≤ x ∧ x < r.upper := by
  intro rs
  induction rs with
  | nil =>
    intro lo hi h x h1 h2
    simp only [ChainFrom] at h
    omega
  | cons r rs ih =>
    intro lo hi h x h1 h2
    simp only [ChainFrom] at h
    obtain ⟨ha, hb, hc⟩ := h
    by_cases hx : x < r.upper
    · exact ⟨r, List.mem_cons_self r rs, by omega, hx⟩
    · obtain ⟨r', hmem, hr'⟩ := ih hc x (by omega) h2
      exact ⟨r', List.mem_cons_of_mem r hmem, hr'⟩

theorem tokens_chain_pairwise :
    ∀ {tokens : List Token},
      (∀ t ∈ tokens, t.offset_from ≤ t.offset_to) →
      List.Chain' (fun a b => a.offset_to ≤ b.offset_from) tokens →
      List.Pairwise (fun a b => a.offset_to ≤ b.offset_from) tokens := by
  intro tokens
  induction tokens with
  | nil => intro _ _; exact List.Pairwise.nil
  | cons t ts ih =>
    intro hsp hch
    have hpw := ih (fun u hu => hsp u (List.mem_cons_of_mem t hu)) hch.tail
    refine List.Pairwise.cons ?_ hpw
    intro b hb
    cases ts with
    | nil => simp at hb
    | cons u us =>
      have htu : t.offset_to ≤ u.offset_from := (List.chain'_cons.mp hch).1
      rcases List.mem_cons.mp hb with rfl | hbus
      · exact htu
      · have h1 : u.offset_to ≤ b.offset_from :=
          (List.pairwise_cons.mp hpw).1 b hbus
        have h2 : u.offset_from ≤ u.offset_to :=
          hsp u (List.mem_cons_of_mem t (List.mem_cons_self u us))
        omega

theorem textRangesLoop_chainFrom (ps : List Nat) (text_len : Nat) :
    ∀ (tokens : List Token) (lower : Nat),
      (∀ t ∈ tokens, t.offset_from ≤ t.offset_to ∧ t.offset_to ≤ text_len) →
      List.Pairwise (fun a b => a.offset_to ≤ b.offset_from) tokens →
      (∀ t ∈ tokens, lower ≤ t.offset_from) →
      lower ≤ text_len →
      ChainFrom lower (textRangesLoop ps lower tokens).1
        (textRangesLoop ps lower tokens).2 ∧
      (textRangesLoop ps lower tokens).2 ≤ text_len := by
  intro tokens
  induction tokens with
  | nil =>
    intro lower _ _ _ hl
    exact ⟨rfl, hl⟩
  | cons t ts ih =>
    intro lower hsp hpw hlb hl
    have htmem := List.mem_cons_self t ts
    by_cases hc : ps.contains (t.position % 2 ^ 32) = true
    · have hrec := ih t.offset_to
        (fun u hu => hsp u (List.mem_cons_of_mem t hu))
        (List.pairwise_cons.mp hpw).2
        (List.pairwise_cons.mp hpw).1
        (hsp t htmem).2
      simp only [textRangesLoop, hc, if_true]
      by_cases hf : lower < t.offset_from
      · rw [if_pos hf]
        simp only [List.cons_append, List.nil_append]
        exact ⟨ChainFrom.cons rfl (le_of_lt hf)
          (ChainFrom.cons rfl (hsp t htmem).1 hrec.1), hrec.2⟩
      · rw [if_neg hf]
        have heq : t.offset_from = lower := by
          have := hlb t htmem
          omega
        simp only [List.nil_append]
        exact ⟨ChainFrom.cons heq (heq ▸ (hsp t htmem).1) hrec.1, hrec.2⟩
    · simp only [textRangesLoop, hc]
      simp only [Bool.false_eq_true, if_false]
      exact ih lower (fun u hu => hsp u (List.mem_cons_of_mem t hu))
        (List.pairwise_cons.mp hpw).2
        (fun u hu => hlb u (List.mem_cons_of_mem t hu)) hl

/-- C1: for every non-empty text, provided the tokenizer emits tokens with
ascending, in-bounds byte spans, the TextRange sequence returned by
`TextRangesGenerator.generate` partitions `[0, len(text))` exactly: the
result is non-empty, the first range starts at 0, consecutive ranges share
an endpoint (each upper equals the next lower) with the last upper equal to
`len(text)` (the ChainFrom conjunct), ranges are pairwise non-overlapping,
and every byte offset of the text is covered by some range. -/
theorem C1_partition (terms : List TermPostings) (init : Nat → Nat)
    (tokens : List Token) (text_len : Nat) (rs : List TextRange)
    (h0 : 0 < text_len) (hwf : TokensAscending tokens text_len)
    (hg : TextRangesGenerator.generate terms init (some tokens) text_len =
      some rs) :
    rs ≠ [] ∧ ChainFrom 0 rs text_len ∧
    List.Pairwise (fun a b => a.upper ≤ b.lower) rs ∧
    (∀ x, x < text_len → ∃ r ∈ rs, r.lower ≤ x ∧ x < r.upper) := by
  obtain ⟨hsp, hch⟩ := hwf
  have hchain : ChainFrom 0 rs text_len := by
    unfold TextRangesGenerator.generate at hg
    rw [if_neg (by omega)] at hg
    by_cases hps : (positions terms init).isEmpty = true
    · rw [if_pos hps] at hg
      have := Option.some.inj hg
      subst this
      exact ChainFrom.cons rfl (Nat.zero_le _) (ChainFrom.nil rfl)
    · rw [if_neg hps] at hg
      simp only [] at hg
      have := Option.some.inj hg
      subst this
      have hpw := tokens_chain_pairwise (fun t ht => (hsp t ht).1) hch
      have hmain := textRangesLoop_chainFrom (positions terms init) text_len
        tokens 0 hsp hpw (fun t _ => Nat.zero_le _) (Nat.zero_le _)
      by_cases hfin : (textRangesLoop (positions terms init) 0 tokens).2 =
          text_len
      · rw [if_neg (by simpa using hfin)]
        rw [List.append_nil, ← hfin]
        exact hmain.1
      · rw [if_pos hfin]
        exact chainFrom_append hmain.1 ⟨rfl, hmain.2, rfl⟩
  refine ⟨?_, hchain, chainFrom_pairwise hchain, ?_⟩
  · intro hnil
    subst hnil
    simp only [ChainFrom] at hchain
    omega
  · intro x hx
    exact chainFrom_cover hchain x (Nat.zero_le x) hx

theorem C1_partition_witness :
    ((0 : Nat) < 19 ∧ TokensAscending foxToks 19 ∧
      TextRangesGenerator.generate [foxTerm] zeroMem (some foxToks) 19 =
        some foxRanges) ∧
    (foxRanges ≠ [] ∧ ChainFrom 0 foxRanges 19 ∧
      List.Pairwise (fun a b : TextRange => a.upper ≤ b.lower) foxRanges ∧
      (∀ x, x < 19 → ∃ r ∈ foxRanges, r.lower ≤ x ∧ x < r.upper)) := by
  have hTA : TokensAscending foxToks 19 := by
    unfold TokensAscending
    refine ⟨by decide, ?_⟩
    exact List.chain'_cons.mpr ⟨by decide, List.chain'_cons.mpr ⟨by decide,
      List.chain'_cons.mpr ⟨by decide, List.chain'_singleton _⟩⟩⟩
  exact ⟨⟨by decide, hTA, by decide⟩,
    C1_partition [foxTerm] zeroMem foxToks 19 foxRanges (by decide) hTA
      (by decide)⟩

/-! ## Alternation structure of the partition output -/

theorem textRangesLoop_filler_sep (ps : List Nat) :
    ∀ (tokens : List Token) (lower : Nat),
      List.Chain' (fun a b => a.highlight = true ∨ b.highlight = true)
        (textRangesLoop ps lower tokens).1 ∧
      (∀ r ∈ (textRangesLoop ps lower tokens).1.getLast?,
        r.highlight = true) := by
  intro tokens
  induction tokens with
  | nil =>
    intro lower
    exact ⟨List.chain'_nil, by simp [textRangesLoop]⟩
  | cons t ts ih =>
    intro lower
    by_cases hc : ps.contains (t.position % 2 ^ 32) = true
    · obtain ⟨ihc, ihl⟩ := ih t.offset_to
      simp only [textRangesLoop, hc, if_true]
      have hmid : List.Chain' (fun a b => a.highlight = true ∨ b.highlight = true)
          ({ highlight := true, lower := t.offset_from, upper := t.offset_to } ::
            (textRangesLoop ps t.offset_to ts).1) :=
        List.chain'_cons'.mpr ⟨fun _ _ => Or.inl rfl, ihc⟩
      have hlast : ∀ r ∈ ((⟨true, t.offset_from, t.offset_to⟩ : TextRange) ::
            (textRangesLoop ps t.offset_to ts).1).getLast?, r.highlight = true := by
        intro r hr
        cases hL : (textRangesLoop ps t.offset_to ts).1 with
        | nil =>
          rw [hL] at hr
          simp only [List.getLast?_singleton, Option.mem_def,
            Option.some.injEq] at hr
          subst hr
          rfl
        | cons x xs =>
          rw [hL, List.getLast?_cons_cons] at hr
          exact ihl r (by rw [hL]; exact hr)
      by_cases hf : lower < t.offset_from
      · rw [if_pos hf]
        simp only [List.cons_append, List.nil_append]
        refine ⟨List.chain'_cons'.mpr ⟨fun y hy => ?_, hmid⟩, ?_⟩
        · have : y = (⟨true, t.offset_from, t.offset_to⟩ : TextRange) := by
            symm
            simpa using hy
          subst this
          exact Or.inr rfl
        · intro r hr
          rw [List.getLast?_cons_cons] at hr
          exact hlast r hr
      · rw [if_neg hf]
        simp only [List.nil_append]
        exact ⟨hmid, hlast⟩
    · simp only [textRangesLoop, hc]
      simp only [Bool.false_eq_true, if_false]
      exact ih lower

/-- C8 counterexample: with text length 5, decoded position set containing
the positions 0 and 1, and two byte-adjacent matched tokens, the code emits
two consecutive highlighted ranges with no filler between them, so the
returned sequence does not strictly alternate highlight flags even though
the text and the position set are non-empty and the token spans are
ascending, non-empty and in-bounds. -/
theorem C8_strict_alternation_cex :
    ((0 : Nat) < 5 ∧ positions [pairTerm] zeroMem ≠ [] ∧
      (∀ t ∈ adjacentToks, t.offset_from < t.offset_to ∧ t.offset_to ≤ 5)) ∧
    TextRangesGenerator.generate [pairTerm] zeroMem (some adjacentToks) 5 =
      some [{ highlight := true, lower := 0, upper := 3 },
            { highlight := true, lower := 3, upper := 5 }] ∧
    ¬ List.Chain' (fun a b : TextRange => a.highlight ≠ b.highlight)
      [{ highlight := true, lower := 0, upper := 3 },
       { highlight := true, lower := 3, upper := 5 }] := by
  refine ⟨⟨by decide, by decide, by decide⟩, by decide, ?_⟩
  intro h
  have := (List.chain'_cons.mp h).1
  simp at this

/-- C8 (amended): the partition output never contains two consecutive
filler (highlight = false) ranges — every filler is immediately followed by
a highlighted range or is the final trailing filler after the last match —
but consecutive highlighted ranges do occur when matched tokens are
byte-adjacent, so the sequence need not strictly alternate. -/
theorem C8_no_adjacent_fillers (terms : List TermPostings) (init : Nat → Nat)
    (tokens : List Token) (text_len : Nat) (rs : List TextRange)
    (h0 : 0 < text_len) (hne : positions terms init ≠ [])
    (hg : TextRangesGenerator.generate terms init (some tokens) text_len =
      some rs) :
    List.Chain' (fun a b => a.highlight = true ∨ b.highlight = true) rs := by
  unfold TextRangesGenerator.generate at hg
  rw [if_neg (by omega)] at hg
  rw [if_neg (by simpa using hne)] at hg
  simp only [] at hg
  have := Option.some.inj hg
  subst this
  obtain ⟨hch, hlast⟩ := textRangesLoop_filler_sep (positions terms init)
    tokens 0
  rw [List.chain'_append]
  refine ⟨hch, ?_, ?_⟩
  · by_cases hfin : (textRangesLoop (positions terms init) 0 tokens).2 =
        text_len
    · rw [if_neg (by simpa using hfin)]
      exact List.chain'_nil
    · rw [if_pos hfin]
      exact List.chain'_singleton _
  · intro x hx y _
    exact Or.inl (hlast x hx)

theorem C8_no_adjacent_fillers_witness :
    ((0 : Nat) < 5 ∧ positions [pairTerm] zeroMem ≠ [] ∧
      TextRangesGenerator.generate [pairTerm] zeroMem (some adjacentToks) 5 =
        some [{ highlight := true, lower := 0, upper := 3 },
              { highlight := true, lower := 3, upper := 5 }]) ∧
    List.Chain' (fun a b : TextRange => a.highlight = true ∨ b.highlight = true)
      [{ highlight := true, lower := 0, upper := 3 },
       { highlight := true, lower := 3, upper := 5 }] :=
  ⟨⟨by decide, by decide, by decide⟩,
    C8_no_adjacent_fillers [pairTerm] zeroMem adjacentToks 5
      [{ highlight := true, lower := 0, upper := 3 },
       { highlight := true, lower := 3, upper := 5 }]
      (by decide) (by decide) (by decide)⟩

/-! ## Ordering and limit truncation of the match output -/

theorem highlightLoop_sound (ps : List Nat) (text_len : Nat)
    (limit : Option Nat) :
    ∀ tokens : List Token,
      (∀ t ∈ tokens, t.offset_from < t.offset_to ∧ t.offset_to ≤ text_len) →
      List.Pairwise (fun a b => a.offset_to ≤ b.offset_from) tokens →
      List.Chain' (fun a b => a.lower < b.lower)
        (highlightLoop ps limit tokens) ∧
      ∀ r ∈ highlightLoop ps limit tokens,
        r.lower < r.upper ∧ r.upper ≤ text_len ∧
        (∀ l, limit = some l → r.upper ≤ l) ∧
        ∃ t ∈ tokens, r.lower = t.offset_from ∧ r.upper = t.offset_to := by
  intro tokens
  induction tokens with
  | nil => intro _ _; simp [highlightLoop]
  | cons t ts ih =>
    intro hsp hpw
    have htmem := List.mem_cons_self t ts
    obtain ⟨ihc, ihm⟩ := ih (fun u hu => hsp u (List.mem_cons_of_mem t hu))
      (List.pairwise_cons.mp hpw).2
    by_cases hlim : ((limit.map fun l => decide (t.offset_to ≤ l)).getD true)
      = true
    · simp only [highlightLoop, hlim, if_true]
      by_cases hmc : ps.contains (t.position % 2 ^ 32) = true
      · simp only [hmc, if_true, List.cons_append, List.nil_append]
        constructor
        · refine List.chain'_cons'.mpr ⟨?_, ihc⟩
          intro y hy
          obtain ⟨_, _, _, u, hu, hyl, _⟩ :=
            ihm y (List.mem_of_mem_head? hy)
          have h1 : t.offset_to ≤ u.offset_from :=
            (List.pairwise_cons.mp hpw).1 u hu
          have h2 := (hsp t htmem).1
          show t.offset_from < y.lower
          omega
        · intro r hr
          rcases List.mem_cons.mp hr with rfl | hr'
          · refine ⟨(hsp t htmem).1, (hsp t htmem).2, ?_,
              t, htmem, rfl, rfl⟩
            intro l hl
            subst hl
            simpa using hlim
          · obtain ⟨a, b, c, u, hu, d⟩ := ihm r hr'
            exact ⟨a, b, c, u, List.mem_cons_of_mem t hu, d⟩
      · simp only [hmc, Bool.false_eq_true, if_false, List.nil_append]
        refine ⟨ihc, ?_⟩
        intro r hr
        obtain ⟨a, b, c, u, hu, d⟩ := ihm r hr
        exact ⟨a, b, c, u, List.mem_cons_of_mem t hu, d⟩
    · simp only [highlightLoop, hlim, Bool.false_eq_true, if_false]
      simp

/-- C5: under the precondition that the tokenizer emits tokens with
ascending, non-empty, in-bounds byte spans, the HighlightRange sequence
returned by `HighlightRangesGenerator.generate` is strictly ascending by
`lower`, and every returned range satisfies `lower < upper ≤ len(text)`,
with `upper ≤ limit` whenever a limit is supplied. -/
theorem C5_ordering (terms : List TermPostings) (init : Nat → Nat)
    (tokens : List Token) (text_len : Nat) (limit : Option Nat)
    (rs : List HighlightRange)
    (hwf : TokensStrict tokens text_len)
    (hg : HighlightRangesGenerator.generate terms init (some tokens) text_len
      limit = some rs) :
    List.Chain' (fun a b => a.lower < b.lower) rs ∧
    ∀ r ∈ rs, r.lower < r.upper ∧ r.upper ≤ text_len ∧
      ∀ l, limit = some l → r.upper ≤ l := by
  obtain ⟨hsp, hch⟩ := hwf
  unfold HighlightRangesGenerator.generate at hg
  by_cases h0 : text_len = 0
  · rw [if_pos h0] at hg
    have := Option.some.inj hg
    subst this
    simp
  · rw [if_neg h0] at hg
    by_cases hps : (positions terms init).isEmpty = true
    · rw [if_pos hps] at hg
      have := Option.some.inj hg
      subst this
      simp
    · rw [if_neg hps] at hg
      simp only [] at hg
      have := Option.some.inj hg
      subst this
      have hpw := tokens_chain_pairwise
        (fun t ht => le_of_lt (hsp t ht).1) hch
      obtain ⟨h1, h2⟩ := highlightLoop_sound (positions terms init) text_len
        limit tokens hsp hpw
      refine ⟨h1, ?_⟩
      intro r hr
      obtain ⟨a, b, c, _⟩ := h2 r hr
      exact ⟨a, b, c⟩

theorem C5_ordering_witness :
    (TokensStrict foxToks 19 ∧
      HighlightRangesGenerator.generate [foxTerm] zeroMem (some foxToks) 19
        (some 19) = some [{ lower := 16, upper := 19 }]) ∧
    (List.Chain' (fun a b : HighlightRange => a.lower < b.lower)
        [{ lower := 16, upper := 19 }] ∧
      ∀ r ∈ [({ lower := 16, upper := 19 } : HighlightRange)],
        r.lower < r.upper ∧ r.upper ≤ 19 ∧
        ∀ l, (some 19 : Option Nat) = some l → r.upper ≤ l) := by
  have hTS : TokensStrict foxToks 19 := by
    unfold TokensStrict
    refine ⟨by decide, ?_⟩
    exact List.chain'_cons.mpr ⟨by decide, List.chain'_cons.mpr ⟨by decide,
      List.chain'_cons.mpr ⟨by decide, List.chain'_singleton _⟩⟩⟩
  exact ⟨⟨hTS, by decide⟩,
    C5_ordering [foxTerm] zeroMem foxToks 19 (some 19)
      [{ lower := 16, upper := 19 }] hTS (by decide)⟩

theorem highlightLoop_upper_le (ps : List Nat) (L : Nat) :
    ∀ tokens : List Token, ∀ r ∈ highlightLoop ps (some L) tokens,
      r.upper ≤ L := by
  intro tokens
  induction tokens with
  | nil => simp [highlightLoop]
  | cons t ts ih =>
    intro r hr
    simp only [highlightLoop, Option.map_some', Option.getD_some,
      decide_eq_true_eq] at hr
    by_cases hlim : t.offset_to ≤ L
    · rw [if_pos (by simpa using hlim)] at hr
      rcases List.mem_append.mp hr with h1 | h2
      · by_cases hmc : ps.contains (t.position % 2 ^ 32) = true
        · rw [if_pos hmc] at h1
          have : r = (⟨t.offset_from, t.offset_to⟩ : HighlightRange) := by
            simpa using h1
          subst this
          exact hlim
        · rw [if_neg hmc] at h1
          simp at h1
      · exact ih r h2
    · rw [if_neg (by simpa using hlim)] at hr
      simp at hr

theorem highlightLoop_stop (ps : List Nat) (L : Nat) (bad : Token)
    (hbad : L < bad.offset_to) :
    ∀ (pre post post' : List Token),
      highlightLoop ps (some L) (pre ++ bad :: post) =
        highlightLoop ps (some L) (pre ++ bad :: post') := by
  intro pre
  induction pre with
  | nil =>
    intro post post'
    simp only [List.nil_append, highlightLoop, Option.map_some',
      Option.getD_some, decide_eq_true_eq]
    rw [if_neg (by omega), if_neg (by omega)]
  | cons t pre ih =>
    intro post post'
    by_cases hlim : t.offset_to ≤ L
    · simp only [List.cons_append, highlightLoop, Option.map_some',
        Option.getD_some, decide_eq_true_eq, if_pos hlim, List.append_eq]
      rw [ih post post']
    · simp only [List.cons_append, highlightLoop, Option.map_some',
        Option.getD_some, decide_eq_true_eq, if_neg hlim, List.append_eq]

/-- C4: when a limit `L` is supplied, no HighlightRange returned by
`HighlightRangesGenerator.generate` has `upper > L`, and consumption of the
token stream stops at the first token whose `offset_to` exceeds `L`: the
result is unchanged when the tokens after that point are replaced by any
other list, so no later token is ever tested for position-set membership. -/
theorem C4_limit_truncation (terms : List TermPostings) (init : Nat → Nat)
    (tokens : List Token) (text_len : Nat) (L : Nat)
    (rs : List HighlightRange)
    (hg : HighlightRangesGenerator.generate terms init (some tokens) text_len
      (some L) = some rs) :
    (∀ r ∈ rs, r.upper ≤ L) ∧
    (∀ (pre : List Token) (bad : Token) (post post' : List Token),
      tokens = pre ++ bad :: post → L < bad.offset_to →
      HighlightRangesGenerator.generate terms init (some (pre ++ bad :: post'))
        text_len (some L) = some rs) := by
  constructor
  · unfold HighlightRangesGenerator.generate at hg
    by_cases h0 : text_len = 0
    · rw [if_pos h0] at hg
      have := Option.some.inj hg
      subst this
      simp
    · rw [if_neg h0] at hg
      by_cases hps : (positions terms init).isEmpty = true
      · rw [if_pos hps] at hg
        have := Option.some.inj hg
        subst this
        simp
      · rw [if_neg hps] at hg
        simp only [] at hg
        have := Option.some.inj hg
        subst this
        exact highlightLoop_upper_le (positions terms init) L tokens
  · intro pre bad post post' htk hbad
    subst htk
    unfold HighlightRangesGenerator.generate at hg ⊢
    by_cases h0 : text_len = 0
    · rw [if_pos h0] at hg ⊢
      exact hg
    · rw [if_neg h0] at hg ⊢
      by_cases hps : (positions terms init).isEmpty = true
      · rw [if_pos hps] at hg ⊢
        exact hg
      · rw [if_neg hps] at hg ⊢
        simp only [] at hg ⊢
        rw [highlightLoop_stop (positions terms init) L bad hbad pre post'
          post]
        exact hg

theorem C4_limit_truncation_witness :
    HighlightRangesGenerator.generate [foxTerm] zeroMem (some foxToks) 19
      (some 9) = some [] ∧
    ((∀ r ∈ ([] : List HighlightRange), r.upper ≤ 9) ∧
      (∀ (pre : List Token) (bad : Token) (post post' : List Token),
        foxToks = pre ++ bad :: post → 9 < bad.offset_to →
        HighlightRangesGenerator.generate [foxTerm] zeroMem
          (some (pre ++ bad :: post')) 19 (some 9) = some [])) :=
  ⟨by decide,
    C4_limit_truncation [foxTerm] zeroMem foxToks 19 9 [] (by decide)⟩

/-! ## Output length bounds -/

theorem textRangesLoop_length_le (ps : List Nat) :
    ∀ (tokens : List Token) (lower : Nat),
      (textRangesLoop ps lower tokens).1.length ≤
        2 * tokens.countP (fun t => ps.contains (t.position % 2 ^ 32)) := by
  intro tokens
  induction tokens with
  | nil => intro lower; simp [textRangesLoop]
  | cons t ts ih =>
    intro lower
    by_cases hc : ps.contains (t.position % 2 ^ 32) = true
    · rw [List.countP_cons_of_pos (fun u => ps.contains (u.position % 2 ^ 32)) ts (by exact hc)]
      simp only [textRangesLoop, hc, if_true]
      have hrec := ih t.offset_to
      by_cases hf : lower < t.offset_from
      · rw [if_pos hf]
        simp only [List.cons_append, List.length_cons, List.nil_append]
        omega
      · rw [if_neg hf]
        simp only [List.nil_append, List.length_cons]
        omega
    · rw [List.countP_cons_of_neg (fun u => ps.contains (u.position % 2 ^ 32)) ts (by exact hc)]
      simp only [textRangesLoop, hc, Bool.false_eq_true, if_false]
      exact ih lower

theorem highlightLoop_length_le (ps : List Nat) (limit : Option Nat) :
    ∀ tokens : List Token,
      (highlightLoop ps limit tokens).length ≤
        tokens.countP (fun t => ps.contains (t.position % 2 ^ 32)) := by
  intro tokens
  induction tokens with
  | nil => simp [highlightLoop]
  | cons t ts ih =>
    by_cases hlim : ((limit.map fun l => decide (t.offset_to ≤ l)).getD true)
      = true
    · simp only [highlightLoop, hlim, if_true]
      by_cases hc : ps.contains (t.position % 2 ^ 32) = true
      · rw [List.countP_cons_of_pos (fun u => ps.contains (u.position % 2 ^ 32)) ts (by exact hc)]
        simp only [hc, if_true, List.cons_append, List.nil_append,
          List.length_cons]
        omega
      · rw [List.countP_cons_of_neg (fun u => ps.contains (u.position % 2 ^ 32)) ts (by exact hc)]
        simp only [hc, Bool.false_eq_true, if_false, List.nil_append]
        exact ih
    · simp only [highlightLoop, hlim, Bool.false_eq_true, if_false]
      exact Nat.zero_le _

theorem countP_contains_le (tokens : List Token) (ps : List Nat)
    (hnt : (tokens.map fun t => t.position % 2 ^ 32).Nodup) :
    tokens.countP (fun t => ps.contains (t.position % 2 ^ 32)) ≤ ps.length := by
  have h1 : (tokens.map fun t => t.position % 2 ^ 32).filter
      (fun x => ps.contains x) =
      (tokens.filter fun t => ps.contains (t.position % 2 ^ 32)).map
        (fun t => t.position % 2 ^ 32) := List.filter_map _ tokens
  have h2 : tokens.countP (fun t => ps.contains (t.position % 2 ^ 32)) =
      ((tokens.map fun t => t.position % 2 ^ 32).filter
        (fun x => ps.contains x)).length := by
    rw [h1, List.length_map, List.countP_eq_length_filter]
  rw [h2]
  have hnd : ((tokens.map fun t => t.position % 2 ^ 32).filter
      (fun x => ps.contains x)).Nodup := hnt.filter _
  have hsub : ((tokens.map fun t => t.position % 2 ^ 32).filter
      (fun x => ps.contains x)) ⊆ ps := by
    intro x hx
    have := (List.mem_filter.mp hx).2
    simpa using this
  exact (hnd.subperm hsub).length_le

/-- C9 (amended): under the precondition that the token ordinals are
pairwise distinct after the code's `as u32` truncation (distinct modulo
`2 ^ 32` — distinctness of the raw emitted ordinals is not enough, see the
counterexample) and the decoded positions are pairwise distinct, the number
of ranges written into the preallocated output vector never exceeds its
reserved capacity: at most `2 * |positions| + 1` TextRanges in partition
mode (capacity `positions.len() + positions.len() + 1`) and at most
`|positions|` HighlightRanges in match mode (capacity `positions.len()`),
so every raw pointer write lands inside the reservation. -/
theorem C9_output_capacity (terms : List TermPostings) (init : Nat → Nat)
    (tokens : List Token) (text_len : Nat) (limit : Option Nat)
    (rs1 : List TextRange) (rs2 : List HighlightRange)
    (hnt : (tokens.map fun t => t.position % 2 ^ 32).Nodup)
    (hnp : (positions terms init).Nodup)
    (hg1 : TextRangesGenerator.generate terms init (some tokens) text_len =
      some rs1)
    (hg2 : HighlightRangesGenerator.generate terms init (some tokens) text_len
      limit = some rs2) :
    rs1.length ≤ 2 * (positions terms init).length + 1 ∧
    rs2.length ≤ (positions terms init).length := by
  have hcnt := countP_contains_le tokens (positions terms init) hnt
  constructor
  · unfold TextRangesGenerator.generate at hg1
    by_cases h0 : text_len = 0
    · rw [if_pos h0] at hg1
      have := Option.some.inj hg1
      subst this
      simp
    · rw [if_neg h0] at hg1
      by_cases hps : (positions terms init).isEmpty = true
      · rw [if_pos hps] at hg1
        have := Option.some.inj hg1
        subst this
        simp [TextRange.whole]
      · rw [if_neg hps] at hg1
        simp only [] at hg1
        have := Option.some.inj hg1
        subst this
        have hlen := textRangesLoop_length_le (positions terms init) tokens 0
        by_cases hfin : (textRangesLoop (positions terms init) 0 tokens).2 ≠
            text_len
        · rw [if_pos hfin, List.length_append, List.length_cons,
            List.length_nil]
          omega
        · rw [if_neg hfin, List.append_nil]
          omega
  · unfold HighlightRangesGenerator.generate at hg2
    by_cases h0 : text_len = 0
    · rw [if_pos h0] at hg2
      have := Option.some.inj hg2
      subst this
      simp
    · rw [if_neg h0] at hg2
      by_cases hps : (positions terms init).isEmpty = true
      · rw [if_pos hps] at hg2
        have := Option.some.inj hg2
        subst this
        simp
      · rw [if_neg hps] at hg2
        simp only [] at hg2
        have := Option.some.inj hg2
        subst this
        have hlen := highlightLoop_length_le (positions terms init) limit
          tokens
        omega

/-- C9 counterexample: with the claim's own precondition — the tokenizer
emits each (raw) token ordinal at most once, the decoded positions are
pairwise distinct — and well-formed ascending in-bounds spans, the ordinals
3 and `2 ^ 32 + 3` both collapse to 3 under the `as u32` cast, so both
tokens match the single decoded position: partition mode writes five
TextRanges into a reservation of `2 * 1 + 1 = 3` and match mode writes two
HighlightRanges into a reservation of 1, exceeding both capacities. -/
theorem C9_raw_ordinal_cex :
    ((collideToks.map fun t => t.position).Nodup ∧
      (positions [foxTerm] zeroMem).Nodup ∧
      (∀ t ∈ collideToks, t.offset_from < t.offset_to ∧ t.offset_to ≤ 10)) ∧
    TextRangesGenerator.generate [foxTerm] zeroMem (some collideToks) 10 =
      some collideTextRanges ∧
    HighlightRangesGenerator.generate [foxTerm] zeroMem (some collideToks) 10
      none = some collideHighlightRanges ∧
    ¬ collideTextRanges.length ≤ 2 * (positions [foxTerm] zeroMem).length + 1 ∧
    ¬ collideHighlightRanges.length ≤ (positions [foxTerm] zeroMem).length := by
  decide

theorem C9_output_capacity_witness :
    ((foxToks.map fun t => t.position % 2 ^ 32).Nodup ∧
      (positions [foxTerm] zeroMem).Nodup ∧
      TextRangesGenerator.generate [foxTerm] zeroMem (some foxToks) 19 =
        some foxRanges ∧
      HighlightRangesGenerator.generate [foxTerm] zeroMem (some foxToks) 19
        none = some [{ lower := 16, upper := 19 }]) ∧
    (foxRanges.length ≤ 2 * (positions [foxTerm] zeroMem).length + 1 ∧
      ([({ lower := 16, upper := 19 } : HighlightRange)]).length ≤
        (positions [foxTerm] zeroMem).length) :=
  ⟨⟨by decide, by decide, by decide, by decide⟩,
    C9_output_capacity [foxTerm] zeroMem foxToks 19 none foxRanges
      [{ lower := 16, upper := 19 }] (by decide) (by decide) (by decide)
      (by decide)⟩
